import Mathlib

/-!
# Verification of the InfraGPT command templating / parameter-resolution pipeline

Shallow embedding of the core pipeline of `infragpt/main.py`:
strings are modelled as `List Char` (`Str`), Python's `str.split()`,
`str.splitlines()`, `str.strip()`, `str.replace()`, `str.split(sep)` and the
regular-expression search `re.findall(r'\[([A-Z_]+)\]', s)` are modelled as
executable Lean functions, and the four pipeline functions
(`split_commands`, `parse_command_parameters`, `get_parameter_info`,
`prompt_for_parameters`) are translated directly from the source.  External
collaborators (the language model and the interactive prompter) are passed in
as function arguments.
-/

/-- Python strings are modelled as lists of characters. -/
abbrev Str := List Char

/-- The character class of the placeholder regular expression `[A-Z_]+`:
uppercase ASCII letters and the underscore. -/
def classChar (c : Char) : Bool := decide (('A' ≤ c ∧ c ≤ 'Z') ∨ c = '_')

/-- Whitespace for Python's `str.split()` / `str.strip()`
(`str.isspace` characters). -/
def pyIsSpace (c : Char) : Bool :=
  decide (c ∈ [' ', '\t', '\n', '\x0b', '\x0c', '\r', '\x1c', '\x1d', '\x1e',
               '\x1f', '\x85', '\xa0', '\u1680']) ||
  decide ('\u2000' ≤ c ∧ c ≤ '\u200a') ||
  decide (c ∈ ['\u2028', '\u2029', '\u202f', '\u205f', '\u3000'])

/-- Line boundary characters for Python's `str.splitlines()`
(`\r\n` is additionally treated as a single boundary). -/
def isLineBoundary (c : Char) : Bool :=
  decide (c ∈ ['\n', '\r', '\x0b', '\x0c', '\x1c', '\x1d', '\x1e', '\x85',
               '\u2028', '\u2029'])

/-- Boolean test: the first list is a leading segment of the second. -/
def listPrefixOf : Str → Str → Bool
  | [], _ => true
  | _ :: _, [] => false
  | c :: p, d :: s => c == d && listPrefixOf p s

/-- Boolean substring containment, Python's `pat in s`. -/
def containsSub (pat : Str) : Str → Bool
  | [] => listPrefixOf pat []
  | c :: rest => listPrefixOf pat (c :: rest) || containsSub pat rest

/-- Worker for `pySplitWs`: `acc` is the current (reversed) pending token. -/
def pySplitWsAux (acc : Str) : Str → List Str
  | [] => if acc = [] then [] else [acc.reverse]
  | c :: rest =>
    if pyIsSpace c then
      if acc = [] then pySplitWsAux [] rest else acc.reverse :: pySplitWsAux [] rest
    else pySplitWsAux (c :: acc) rest

/-- Python's `str.split()` (split on whitespace runs, dropping empty tokens). -/
def pySplitWs (s : Str) : List Str := pySplitWsAux [] s

/-- Worker for `splitlines`: `acc` is the current (reversed) pending line.
The three clauses distinguish the input shapes `[]`, `[c]` and `c :: d :: rest`
so that the `\r\n` double boundary can be consumed in one structural step. -/
def splitlinesAux (acc : Str) : Str → List Str
  | [] => if acc = [] then [] else [acc.reverse]
  | [c] => if isLineBoundary c then [acc.reverse] else [(c :: acc).reverse]
  | c :: d :: rest =>
    if isLineBoundary c then
      if c = '\r' ∧ d = '\n' then acc.reverse :: splitlinesAux [] rest
      else acc.reverse :: splitlinesAux [] (d :: rest)
    else splitlinesAux (c :: acc) (d :: rest)

/-- Python's `str.splitlines()`. -/
def splitlines (s : Str) : List Str := splitlinesAux [] s

/-- Python's `str.strip()`: drop whitespace from both ends. -/
def pyStrip (s : Str) : Str :=
  ((s.dropWhile pyIsSpace).reverse.dropWhile pyIsSpace).reverse

/-- Python's string join, `sep.join(parts)`. -/
def joinWith (sep : Str) : List Str → Str
  | [] => []
  | [c] => c
  | c :: c' :: rest => c ++ sep ++ joinWith sep (c' :: rest)

/-- Worker for `findallBrackets`, a single left-to-right scan implementing
`re.findall(r'\[([A-Z_]+)\]', s)`: state `none` is "outside a candidate",
state `some acc` is "after a `[` having read the (reversed) run `acc` of
class characters".  A maximal run of `[A-Z_]` characters directly followed by
`]` is a match (the regex cannot match otherwise, because backtracking inside
`[A-Z_]+` can never make the following `]` match earlier); scanning resumes
after the `]`.  A failed candidate resumes scanning at the failing character,
which is equivalent to the regex engine's restart at the position after the
`[`, because a match can only begin at a `[`. -/
def findallAux : Option Str → Str → List Str
  | _, [] => []
  | none, c :: rest =>
    if c = '[' then findallAux (some []) rest else findallAux none rest
  | some acc, c :: rest =>
    if classChar c then findallAux (some (c :: acc)) rest
    else if c = ']' ∧ acc ≠ [] then acc.reverse :: findallAux none rest
    else if c = '[' then findallAux (some []) rest
    else findallAux none rest

/-- Model of `re.findall(r'\[([A-Z_]+)\]', s)`: the captured placeholder names, in
scan order, duplicates included. -/
def findallBrackets (s : Str) : List Str := findallAux none s

/-- Fuelled worker for `replaceAll` (the fuel ≥ length of the string, so the
out-of-fuel clause is never reached; fuel makes the recursion structural). -/
def replaceAllF (pat new : Str) : Nat → Str → Str
  | _, [] => []
  | 0, s => s
  | fuel + 1, c :: rest =>
    if pat ≠ [] ∧ listPrefixOf pat (c :: rest) then
      new ++ replaceAllF pat new fuel ((c :: rest).drop pat.length)
    else c :: replaceAllF pat new fuel rest

/-- Python's `s.replace(pat, new)` (left-to-right, non-overlapping).  The
pipeline only ever calls it with the nonempty pattern `"[" + name + "]"`. -/
def replaceAll (pat new s : Str) : Str := replaceAllF pat new s.length s

/-- Fuelled worker for `pySplitOn` (fuel as in `replaceAllF`). -/
def pySplitOnF (delim : Str) : Nat → Str → Str → List Str
  | _, acc, [] => [acc.reverse]
  | 0, acc, s => [acc.reverse ++ s]
  | fuel + 1, acc, c :: rest =>
    if delim ≠ [] ∧ listPrefixOf delim (c :: rest) then
      acc.reverse :: pySplitOnF delim fuel [] ((c :: rest).drop delim.length)
    else pySplitOnF delim fuel (c :: acc) rest

/-- Python's `s.split(delim)` for a nonempty literal delimiter. -/
def pySplitOn (delim s : Str) : List Str := pySplitOnF delim s.length [] s

/-! ## The embedded source functions -/

/-- The sentinel phrase of `split_commands` (main.py line 253). -/
def sentinel : Str := "Request cannot be fulfilled.".toList

/-- The function `split_commands` (main.py lines 251-258): if the raw result contains the
sentinel, return the whole raw result as a single element; otherwise split on
line boundaries, strip each line and drop the empty ones. -/
def split_commands (result : Str) : List Str :=
  if containsSub sentinel result then [result]
  else (splitlines result).filterMap
    (fun line => let s := pyStrip line; if s = [] then none else some s)

/-- The parameter metadata the code reads out of the model's JSON answer
(main.py lines 208-211): only the keys `description`, `examples` and
`default` are ever consulted; `none` models an absent key. -/
structure ParamMeta where
  description : Option Str
  examples : List Str
  default : Option Str
deriving DecidableEq

/-- Association-list lookup, Python's `dict.get`. -/
def alookup (k : Str) : List (Str × α) → Option α
  | [] => none
  | (k', v) :: rest => if k' = k then some v else alookup k rest

/-- Python's `dict[k] = v`: update in place if the key exists (keeping its
insertion position), otherwise append. -/
def dictInsert (k : Str) (v : α) : List (Str × α) → List (Str × α)
  | [] => [(k, v)]
  | (k', v') :: rest =>
    if k' = k then (k', v) :: rest else (k', v') :: dictInsert k v rest

/-- The JSON-block extraction of `get_parameter_info` (main.py lines 133-139):
`result.split("```json")[1].split("```")[0].strip()` when a ```` ```json ````
fence is present, `result.split("```")[1].strip()` when only a bare fence is
present, and `result.strip()` otherwise.  The indices 0 and 1 are always in
range because of the containment guards, so `getD` never takes its default. -/
def extract_json_part (result : Str) : Str :=
  if containsSub ("```json".toList) result then
    pyStrip ((pySplitOn ("```".toList)
      ((pySplitOn ("```json".toList) result).getD 1 [])).getD 0 [])
  else if containsSub ("```".toList) result then
    pyStrip ((pySplitOn ("```".toList) result).getD 1 [])
  else pyStrip result

/-- Result of `get_parameter_info`, instrumented with whether the external
model was invoked and whether the non-fatal parse warning was printed. -/
structure MetaResult where
  info : List (Str × ParamMeta)
  calledLLM : Bool
  warned : Bool
deriving DecidableEq

/-- The function `get_parameter_info` (main.py lines 112-145).  The external collaborator
is `describe` (the `describeParameters` model call returning raw text) and
`jsonParse` models `json.loads` on the extracted block, `none` meaning that
parsing raised.  When the command has no `[A-Z_]` bracket placeholders the
function returns an empty mapping without calling the model; when parsing
fails it warns and returns an empty mapping. -/
def get_parameter_info (describe : Str → Str)
    (jsonParse : Str → Option (List (Str × ParamMeta))) (command : Str) :
    MetaResult :=
  let bracket_params := findallBrackets command
  if bracket_params = [] then ⟨[], false, false⟩
  else
    match jsonParse (extract_json_part (describe command)) with
    | some d => ⟨d, true, false⟩
    | none => ⟨[], true, true⟩

/-- The loop state of `parse_command_parameters` (main.py lines 150-155). -/
structure ParseState where
  base : List Str
  params : List (Str × Option Str)
  current : Option Str
  brackets : List Str
deriving DecidableEq

/-- One iteration of the token loop of `parse_command_parameters`
(main.py lines 157-178): collect bracket matches, then classify the token as
`--name=value`, `--name` (which records the name as awaiting a value),
a value for an awaiting name, or a base-command token. -/
def stepPart (st : ParseState) (part : Str) : ParseState :=
  let st := { st with brackets := st.brackets ++ findallBrackets part }
  if listPrefixOf ("--".toList) part then
    if '=' ∈ part then
      let name := (part.takeWhile (· ≠ '=')).drop 2
      let value := (part.dropWhile (· ≠ '=')).drop 1
      { st with params := dictInsert name (some value) st.params }
    else
      { st with params := dictInsert (part.drop 2) none st.params,
                current := some (part.drop 2) }
  else
    match st.current with
    | some name =>
      { st with params := dictInsert name (some part) st.params, current := none }
    | none => { st with base := st.base ++ [part] }

/-- The final loop state of `parse_command_parameters` on a command. -/
def parse_state (command : Str) : ParseState :=
  (pySplitWs command).foldl stepPart ⟨[], [], none, []⟩

/-- The classification returned by `parse_command_parameters`
(main.py line 180): the base command re-joined with single spaces, the
flag map, and the bracket placeholder list. -/
structure ParseResult where
  baseCommand : Str
  params : List (Str × Option Str)
  brackets : List Str
deriving DecidableEq

/-- The function `parse_command_parameters` (main.py lines 147-180). -/
def parse_command_parameters (command : Str) : ParseResult :=
  let st := parse_state command
  ⟨joinWith [' '] st.base, st.params, st.brackets⟩

/-- The content of one interactive prompt: the parameter name shown in the
label, the description line (shown only when the description is nonempty),
the `Examples: ...` line (shown only when the example list is nonempty), and
the default offered to the user (main.py lines 213-222 and 236-240). -/
structure PromptSpec where
  name : Str
  shownDescription : Option Str
  shownExamples : Option Str
  defaultVal : Str
deriving DecidableEq

/-- The prompt built for one bracket placeholder (main.py lines 208-222):
a missing metadata entry or a missing `description` key falls back to the
description `"Value for <name>"`, missing `examples`/`default` fall back to
nothing, and the default offered is `default or ""`. -/
def placeholderPromptSpec (parameter_info : List (Str × ParamMeta))
    (param : Str) : PromptSpec :=
  let info := alookup param parameter_info
  let description : Str :=
    match info with
    | none => "Value for ".toList ++ param
    | some m =>
      match m.description with
      | none => "Value for ".toList ++ param
      | some d => d
  let examples : List Str := match info with | none => [] | some m => m.examples
  let default : Option Str := match info with | none => none | some m => m.default
  { name := param
    shownDescription := if description = [] then none else some description
    shownExamples :=
      if examples = [] then none else some (joinWith (", ".toList) examples)
    defaultVal := default.getD [] }

/-- The bracket-parameter loop (main.py lines 207-225): for each placeholder
name, in list order, ask the collaborator and literally replace every
occurrence of `[name]`; returns the final string and the prompts issued. -/
def placeholderLoop (parameter_info : List (Str × ParamMeta))
    (ask : PromptSpec → Str) : List Str → Str → Str × List PromptSpec
  | [], cmd => (cmd, [])
  | p :: rest, cmd =>
    let spec := placeholderPromptSpec parameter_info p
    let value := ask spec
    let next := placeholderLoop parameter_info ask rest
      (replaceAll ('[' :: p ++ [']']) value cmd)
    (next.1, spec :: next.2)

/-- The prompt built for one bound flag (main.py lines 236-240): the bare
flag name with the existing bound value (if any) offered as the default. -/
def boundPromptSpec (param : Str) (default_value : Option Str) : PromptSpec :=
  { name := param, shownDescription := none, shownExamples := none,
    defaultVal := default_value.getD [] }

/-- The reconstruction loop of the bound-parameter branch
(main.py lines 243-247): starting from the joined base command, append
`" --name=value"` for every parameter whose resolved value is nonempty. -/
def reconstructLoop (base : Str) : List (Str × Str) → Str
  | [] => base
  | (param, value) :: rest =>
    if value = [] then reconstructLoop base rest
    else reconstructLoop (base ++ " --".toList ++ param ++ '=' :: value) rest

/-- Result of `prompt_for_parameters`, instrumented with which of the two
resolution branches ran and with the prompts issued. -/
structure ResolveTrace where
  result : Str
  usedPlaceholderMode : Bool
  usedBoundMode : Bool
  prompts : List PromptSpec
deriving DecidableEq

/-- The function `prompt_for_parameters` (main.py lines 182-249).  `describe`/`jsonParse`
are the metadata collaborators passed through to `get_parameter_info` (called
only when bracket placeholders exist), `ask` is the interactive prompter.
If the command has neither flags nor placeholders it passes through; if it
has bracket placeholders the placeholder branch runs (and the bound branch
does not); otherwise every flag is prompted for and the command is rebuilt
by `reconstructLoop`. -/
def prompt_for_parameters (describe : Str → Str)
    (jsonParse : Str → Option (List (Str × ParamMeta)))
    (ask : PromptSpec → Str) (command : Str) : ResolveTrace :=
  let pr := parse_command_parameters command
  let parameter_info :=
    if pr.brackets = [] then []
    else (get_parameter_info describe jsonParse command).info
  if pr.params = [] ∧ pr.brackets = [] then ⟨command, false, false, []⟩
  else if pr.brackets = [] then
    let updated := pr.params.map (fun pv => (pv.1, ask (boundPromptSpec pv.1 pv.2)))
    ⟨reconstructLoop pr.baseCommand updated, false, true,
      pr.params.map (fun pv => boundPromptSpec pv.1 pv.2)⟩
  else
    let run := placeholderLoop parameter_info ask pr.brackets command
    ⟨run.1, true, false, run.2⟩

/-! ## Basic bridge lemmas -/

theorem listPrefixOf_iff {p s : Str} : listPrefixOf p s = true ↔ ∃ t, s = p ++ t := by
  induction p generalizing s with
  | nil => simp [listPrefixOf]
  | cons c p ih =>
    cases s with
    | nil => simp [listPrefixOf]
    | cons d s' =>
      simp only [listPrefixOf, Bool.and_eq_true, beq_iff_eq, ih, List.cons_append]
      constructor
      · rintro ⟨rfl, t, rfl⟩; exact ⟨t, rfl⟩
      · rintro ⟨t, h⟩
        injection h with h1 h2
        exact ⟨h1.symm, t, h2⟩

theorem listPrefixOf_cons_ne {c d : Char} {p s : Str} (h : c ≠ d) :
    listPrefixOf (c :: p) (d :: s) = false := by
  simp [listPrefixOf, h]

theorem containsSub_iff {pat s : Str} :
    containsSub pat s = true ↔ ∃ u v, s = u ++ pat ++ v := by
  induction s with
  | nil =>
    simp only [containsSub, listPrefixOf_iff]
    constructor
    · rintro ⟨t, h⟩
      rcases List.append_eq_nil.mp h.symm with ⟨rfl, rfl⟩
      exact ⟨[], [], rfl⟩
    · rintro ⟨u, v, h⟩
      rcases List.append_eq_nil.mp h.symm with ⟨h1, rfl⟩
      rcases List.append_eq_nil.mp h1 with ⟨rfl, rfl⟩
      exact ⟨[], rfl⟩
  | cons c rest ih =>
    simp only [containsSub, Bool.or_eq_true, listPrefixOf_iff, ih]
    constructor
    · rintro (⟨t, h⟩ | ⟨u, v, h⟩)
      · exact ⟨[], t, by simpa using h⟩
      · exact ⟨c :: u, v, by simp [h]⟩
    · rintro ⟨u, v, h⟩
      cases u with
      | nil => exact Or.inl ⟨v, by simpa using h⟩
      | cons c' u' =>
        injection h with h1 h2
        exact Or.inr ⟨u', v, h2⟩

/-! ## Unfolding and preservation lemmas for `replaceAll` -/

theorem replaceAllF_irrel (pat new : Str) :
    ∀ (f g : Nat) (s : Str), s.length ≤ f → s.length ≤ g →
      replaceAllF pat new f s = replaceAllF pat new g s := by
  intro f
  induction f with
  | zero =>
    intro g s hf _
    have : s = [] := List.length_eq_zero.mp (Nat.le_zero.mp hf)
    subst this
    cases g <;> rfl
  | succ f ih =>
    intro g s hf hg
    cases s with
    | nil => cases g <;> rfl
    | cons c rest =>
      cases g with
      | zero => simp at hg
      | succ g =>
        simp only [List.length_cons] at hf hg
        simp only [replaceAllF]
        by_cases hcond : pat ≠ [] ∧ listPrefixOf pat (c :: rest) = true
        · rw [if_pos hcond, if_pos hcond]
          have hpat1 : 1 ≤ pat.length := by
            cases hp : pat with
            | nil => exact absurd hp hcond.1
            | cons x xs => simp
          have hlen : ((c :: rest).drop pat.length).length ≤ rest.length := by
            simp only [List.length_drop, List.length_cons]
            omega
          have h1 : ((c :: rest).drop pat.length).length ≤ f := by omega
          have h2 : ((c :: rest).drop pat.length).length ≤ g := by omega
          rw [ih g _ h1 h2]
        · rw [if_neg hcond, if_neg hcond]
          have h1 : rest.length ≤ f := by omega
          have h2 : rest.length ≤ g := by omega
          rw [ih g rest h1 h2]

theorem replaceAll_nil (pat new : Str) : replaceAll pat new [] = [] := rfl

theorem replaceAll_cons (pat new : Str) (c : Char) (rest : Str) :
    replaceAll pat new (c :: rest) =
      if pat ≠ [] ∧ listPrefixOf pat (c :: rest) = true then
        new ++ replaceAll pat new ((c :: rest).drop pat.length)
      else c :: replaceAll pat new rest := by
  show replaceAllF pat new (rest.length + 1) (c :: rest) = _
  simp only [replaceAllF]
  by_cases hcond : pat ≠ [] ∧ listPrefixOf pat (c :: rest) = true
  · rw [if_pos hcond, if_pos hcond]
    have hpat1 : 1 ≤ pat.length := by
      cases hp : pat with
      | nil => exact absurd hp hcond.1
      | cons x xs => simp
    have hle : ((c :: rest).drop pat.length).length ≤ rest.length := by
      simp only [List.length_drop, List.length_cons]
      omega
    rw [replaceAllF_irrel pat new rest.length ((c :: rest).drop pat.length).length _ hle le_rfl]
    rfl
  · rw [if_neg hcond, if_neg hcond]
    rfl

/-- Copying lemma: a replacement whose pattern starts with `[` walks over any
segment that contains no `[` without touching it. -/
theorem replaceAll_skip {q n u t : Str} (hu : '[' ∉ u) :
    replaceAll ('[' :: q) n (u ++ t) = u ++ replaceAll ('[' :: q) n t := by
  induction u with
  | nil => simp
  | cons c u' ih =>
    have hc : '[' ≠ c := fun h => hu (h ▸ List.mem_cons_self c u')
    rw [List.cons_append, replaceAll_cons]
    rw [if_neg]
    · rw [ih (fun h => hu (List.mem_cons_of_mem c h))]
      rfl
    · rw [listPrefixOf_cons_ne hc]
      simp

/-- Every character of the pattern `"[" ++ p ++ "]"` with `p` drawn from the
placeholder character class is a `[`, a class character, or a `]`. -/
theorem pat_mem_cases {p : Str} (hp : ∀ c ∈ p, classChar c = true) :
    ∀ c ∈ '[' :: p ++ [']'], c = '[' ∨ classChar c = true ∨ c = ']' := by
  intro c hc
  rcases List.mem_cons.mp hc with rfl | hc
  · exact Or.inl rfl
  · rcases List.mem_append.mp hc with hc | hc
    · exact Or.inr (Or.inl (hp c hc))
    · simp only [List.mem_singleton] at hc
      exact Or.inr (Or.inr hc)

/-- Preservation of a plain segment: replacing placeholder patterns cannot
touch a nonempty segment `u` that contains no bracket characters and at
least one character outside the `[A-Z_]` class. -/
theorem replaceAll_keeps_plain {p v u : Str}
    (hp : ∀ c ∈ p, classChar c = true)
    (hul : '[' ∉ u) (hur : ']' ∉ u)
    (hbad : ∃ c ∈ u, classChar c = false) :
    ∀ a b, ∃ a' b',
      replaceAll ('[' :: p ++ [']']) v (a ++ u ++ b) = a' ++ u ++ b' := by
  have main : ∀ (n : Nat) (a b : Str), a.length ≤ n → ∃ a' b',
      replaceAll ('[' :: p ++ [']']) v (a ++ u ++ b) = a' ++ u ++ b' := by
    intro n
    induction n with
    | zero =>
      intro a b ha
      have : a = [] := List.length_eq_zero.mp (Nat.le_zero.mp ha)
      subst this
      refine ⟨[], replaceAll ('[' :: p ++ [']']) v b, ?_⟩
      simpa using replaceAll_skip (q := p ++ [']']) (n := v) (t := b) hul
    | succ n ih =>
      intro a b ha
      cases a with
      | nil =>
        refine ⟨[], replaceAll ('[' :: p ++ [']']) v b, ?_⟩
        simpa using replaceAll_skip (q := p ++ [']']) (n := v) (t := b) hul
      | cons c a' =>
        simp only [List.cons_append, List.append_assoc]
        rw [replaceAll_cons]
        by_cases hcond : ('[' :: (p ++ [']']) : Str) ≠ [] ∧
            listPrefixOf ('[' :: (p ++ [']'])) (c :: (a' ++ (u ++ b))) = true
        · rw [if_pos hcond]
          -- the pattern occurrence must fall entirely inside `c :: a'`
          obtain ⟨t, ht⟩ := listPrefixOf_iff.mp hcond.2
          have hlenle : ('[' :: (p ++ [']']) : Str).length ≤ (c :: a').length := by
            by_contra hgt
            push_neg at hgt
            set pat : Str := '[' :: (p ++ [']']) with hpat
            set A : Str := c :: a' with hA
            -- pat = A ++ w with w a nonempty suffix of the pattern
            have hl : A ++ (u ++ b) = pat ++ t := by
              simpa [hA, hpat, List.append_assoc] using ht
            have hpatTake : pat = List.take pat.length (A ++ (u ++ b)) := by
              rw [hl, List.take_append_eq_append_take,
                List.take_of_length_le (le_refl pat.length), Nat.sub_self]
              simp
            have hAle : A.length ≤ pat.length := Nat.le_of_lt hgt
            have hpatA : pat = A ++ List.take (pat.length - A.length) (u ++ b) := by
              conv_lhs => rw [hpatTake]
              rw [List.take_append_eq_append_take, List.take_of_length_le hAle]
            set k : Nat := pat.length - A.length with hk
            have hk1 : 1 ≤ k := by omega
            -- w is also a suffix of `p ++ [']']`
            have hw : List.take k (u ++ b) = List.drop (A.length - 1) (p ++ [']']) := by
              have := congrArg (List.drop A.length) hpatA
              rw [List.drop_append_eq_append_drop, Nat.sub_self,
                List.drop_of_length_le (le_refl A.length), List.nil_append,
                List.drop_zero] at this
              rw [← this, hpat]
              have hAlen : A.length = a'.length + 1 := by simp [hA]
              have h1 : A.length = (A.length - 1) + 1 := by omega
              rw [h1, List.drop_succ_cons]
              simp
            have hwmem : ∀ x ∈ List.take k (u ++ b), classChar x = true ∨ x = ']' := by
              intro x hx
              rw [hw] at hx
              have hx' : x ∈ p ++ [']'] := List.drop_subset _ _ hx
              rcases List.mem_append.mp hx' with hx' | hx'
              · exact Or.inl (hp x hx')
              · simp only [List.mem_singleton] at hx'
                exact Or.inr hx'
            by_cases hku : u.length ≤ k
            · -- the whole of u sits inside the pattern: contradiction via bad char
              obtain ⟨c0, hc0u, hc0bad⟩ := hbad
              have hc0w : c0 ∈ List.take k (u ++ b) := by
                rw [List.take_append_eq_append_take, List.take_of_length_le hku]
                exact List.mem_append_left _ hc0u
              rcases hwmem c0 hc0w with h | h
              · rw [hc0bad] at h; exact absurd h (by simp)
              · exact hur (h ▸ hc0u)
            · -- the pattern's closing `]` sits inside u: contradiction
              push_neg at hku
              have htk : List.take k (u ++ b) = List.take k u := by
                rw [List.take_append_eq_append_take,
                  Nat.sub_eq_zero_of_le (Nat.le_of_lt hku), List.take_zero,
                  List.append_nil]
              have hrbr : (']' : Char) ∈ List.take k (u ++ b) := by
                rw [hw]
                have hA1p : A.length - 1 ≤ p.length := by
                  have : pat.length = p.length + 2 := by simp [hpat]
                  omega
                rw [List.drop_append_eq_append_drop,
                  Nat.sub_eq_zero_of_le hA1p]
                simp
              rw [htk] at hrbr
              exact hur (List.take_subset _ _ hrbr)
          -- now drop the pattern inside `c :: a'` and recurse
          have hdrop : (c :: (a' ++ (u ++ b))).drop ('[' :: (p ++ [']']) : Str).length
              = ((c :: a').drop ('[' :: (p ++ [']']) : Str).length) ++ (u ++ b) := by
            have heq : (c :: (a' ++ (u ++ b))) = (c :: a') ++ (u ++ b) := by simp
            rw [heq, List.drop_append_eq_append_drop,
              Nat.sub_eq_zero_of_le hlenle, List.drop_zero]
          rw [hdrop]
          have hlen' : (((c :: a').drop ('[' :: (p ++ [']']) : Str).length)).length ≤ n := by
            simp only [List.length_drop, List.length_cons] at *
            have hp2 : 1 ≤ ('[' :: (p ++ [']']) : Str).length := by simp
            omega
          obtain ⟨a'', b'', hab⟩ := ih _ b hlen'
          refine ⟨v ++ a'', b'', ?_⟩
          simp only [List.append_assoc, List.cons_append] at hab ⊢
          rw [hab]
        · rw [if_neg hcond]
          have hlen' : a'.length ≤ n := by
            simp only [List.length_cons] at ha
            omega
          obtain ⟨a'', b'', hab⟩ := ih a' b hlen'
          refine ⟨c :: a'', b'', ?_⟩
          simp only [List.append_assoc, List.cons_append] at hab ⊢
          rw [hab]
  intro a b
  exact main a.length a b le_rfl

/-- Core disagreement lemma: the tail of a placeholder pattern (a class-only
run followed by `]`) can never coincide with the tail of an invalid bracketed
span (a `]`-free run containing a non-class character followed by `]`). -/
theorem span_core {p w b t : Str} (hp : ∀ c ∈ p, classChar c = true)
    (hwr : ']' ∉ w) (hbad : ∃ c ∈ w, classChar c = false)
    (h : w ++ ']' :: b = p ++ ']' :: t) : False := by
  rcases Nat.lt_trichotomy w.length p.length with hlt | heq | hgt
  · have e1 : List.take (w.length + 1) (w ++ ']' :: b) = w ++ [']'] := by
      rw [List.take_append_eq_append_take,
        List.take_of_length_le (by omega : w.length ≤ w.length + 1)]
      congr 1
      have h1 : w.length + 1 - w.length = 1 := by omega
      rw [h1]
      rfl
    have e2 : List.take (w.length + 1) (p ++ ']' :: t) =
        List.take (w.length + 1) p := by
      rw [List.take_append_eq_append_take]
      have h0 : w.length + 1 - p.length = 0 := by omega
      rw [h0, List.take_zero, List.append_nil]
    have h1 : w ++ [']'] = List.take (w.length + 1) p := by
      rw [← e1, h, e2]
    have hmem : (']' : Char) ∈ List.take (w.length + 1) p := by
      rw [← h1]; simp
    exact absurd (hp ']' (List.take_subset _ _ hmem)) (by decide)
  · have e1 : List.take w.length (w ++ ']' :: b) = w := by
      rw [List.take_append_eq_append_take, List.take_of_length_le le_rfl,
        Nat.sub_self, List.take_zero, List.append_nil]
    have e2 : List.take w.length (p ++ ']' :: t) = p := by
      rw [List.take_append_eq_append_take, heq,
        List.take_of_length_le le_rfl, Nat.sub_self, List.take_zero,
        List.append_nil]
    have hwp : w = p := by rw [← e1, h, e2]
    obtain ⟨c0, hc0, hbadc⟩ := hbad
    have := hp c0 (hwp ▸ hc0)
    rw [hbadc] at this
    exact absurd this (by simp)
  · have e1 : List.take (p.length + 1) (w ++ ']' :: b) =
        List.take (p.length + 1) w := by
      rw [List.take_append_eq_append_take]
      have h0 : p.length + 1 - w.length = 0 := by omega
      rw [h0, List.take_zero, List.append_nil]
    have e2 : List.take (p.length + 1) (p ++ ']' :: t) = p ++ [']'] := by
      rw [List.take_append_eq_append_take,
        List.take_of_length_le (by omega : p.length ≤ p.length + 1)]
      congr 1
      have h1 : p.length + 1 - p.length = 1 := by omega
      rw [h1]
      rfl
    have h1 : List.take (p.length + 1) w = p ++ [']'] := by
      rw [← e1, h, e2]
    have hmem : (']' : Char) ∈ List.take (p.length + 1) w := by
      rw [h1]; simp
    exact hwr (List.take_subset _ _ hmem)

/-- A placeholder pattern is never a leading segment of an invalid bracketed
span (followed by anything). -/
theorem span_no_pref {p w bb : Str} (hp : ∀ c ∈ p, classChar c = true)
    (hwr : ']' ∉ w) (hbad : ∃ c ∈ w, classChar c = false) :
    ¬ listPrefixOf ('[' :: (p ++ [']'])) ('[' :: (w ++ ']' :: bb)) = true := by
  intro hpre
  obtain ⟨t, ht⟩ := listPrefixOf_iff.mp hpre
  simp only [List.cons_append, List.append_assoc, List.singleton_append,
    List.cons.injEq, true_and] at ht
  exact span_core hp hwr hbad ht

/-- Preservation of an invalid bracketed span `[w]` (no inner brackets, at
least one non-class character in `w`): placeholder replacement leaves the
span's text intact. -/
theorem replaceAll_keeps_span {p v w : Str}
    (hp : ∀ c ∈ p, classChar c = true)
    (hwl : '[' ∉ w) (hwr : ']' ∉ w)
    (hbad : ∃ c ∈ w, classChar c = false) :
    ∀ a b, ∃ a' b',
      replaceAll ('[' :: p ++ [']']) v (a ++ ('[' :: w ++ [']']) ++ b) =
        a' ++ ('[' :: w ++ [']']) ++ b' := by
  have base : ∀ b : Str, replaceAll ('[' :: (p ++ [']'])) v ('[' :: (w ++ ']' :: b)) =
      '[' :: (w ++ ']' :: replaceAll ('[' :: (p ++ [']'])) v b) := by
    intro b
    rw [replaceAll_cons, if_neg (fun hco => span_no_pref hp hwr hbad hco.2)]
    have hskip := replaceAll_skip (q := p ++ [']']) (n := v)
      (u := w) (t := ']' :: b) hwl
    rw [hskip, replaceAll_cons, if_neg]
    rw [listPrefixOf_cons_ne (by decide : ('[' : Char) ≠ ']')]
    simp
  have main : ∀ (n : Nat) (a b : Str), a.length ≤ n → ∃ a' b',
      replaceAll ('[' :: p ++ [']']) v (a ++ ('[' :: w ++ [']']) ++ b) =
        a' ++ ('[' :: w ++ [']']) ++ b' := by
    intro n
    induction n with
    | zero =>
      intro a b ha
      have : a = [] := List.length_eq_zero.mp (Nat.le_zero.mp ha)
      subst this
      refine ⟨[], replaceAll ('[' :: p ++ [']']) v b, ?_⟩
      simp only [List.nil_append, List.cons_append, List.append_assoc,
        List.singleton_append]
      exact base b
    | succ n ih =>
      intro a b ha
      cases a with
      | nil =>
        refine ⟨[], replaceAll ('[' :: p ++ [']']) v b, ?_⟩
        simp only [List.nil_append, List.cons_append, List.append_assoc,
          List.singleton_append]
        exact base b
      | cons c a' =>
        simp only [List.cons_append, List.append_assoc, List.singleton_append,
          List.nil_append]
        rw [replaceAll_cons]
        by_cases hcond : ('[' :: (p ++ [']']) : Str) ≠ [] ∧
            listPrefixOf ('[' :: (p ++ [']']))
              (c :: (a' ++ '[' :: (w ++ ']' :: b))) = true
        · rw [if_pos hcond]
          obtain ⟨t, ht⟩ := listPrefixOf_iff.mp hcond.2
          have hlenle : ('[' :: (p ++ [']']) : Str).length ≤ (c :: a').length := by
            by_contra hgt
            push_neg at hgt
            set pat : Str := '[' :: (p ++ [']']) with hpat
            set A : Str := c :: a' with hA
            set S : Str := '[' :: (w ++ ']' :: b) with hS
            have hl : A ++ S = pat ++ t := by
              simpa [hA, hpat, hS, List.append_assoc] using ht
            have hpatTake : pat = List.take pat.length (A ++ S) := by
              rw [hl, List.take_append_eq_append_take,
                List.take_of_length_le (le_refl pat.length), Nat.sub_self]
              simp
            have hAle : A.length ≤ pat.length := Nat.le_of_lt hgt
            have hpatA : pat = A ++ List.take (pat.length - A.length) S := by
              conv_lhs => rw [hpatTake]
              rw [List.take_append_eq_append_take, List.take_of_length_le hAle]
            set k : Nat := pat.length - A.length with hk
            have hk1 : 1 ≤ k := by omega
            have hw : List.take k S = List.drop (A.length - 1) (p ++ [']']) := by
              have hdq := congrArg (List.drop A.length) hpatA
              rw [List.drop_append_eq_append_drop, Nat.sub_self,
                List.drop_of_length_le (le_refl A.length), List.nil_append,
                List.drop_zero] at hdq
              rw [← hdq, hpat]
              have hAlen : A.length = a'.length + 1 := by simp [hA]
              have h1 : A.length = (A.length - 1) + 1 := by omega
              rw [h1, List.drop_succ_cons]
              simp
            -- the first character of the overlap would have to be `[`,
            -- but the pattern has no `[` after its head
            have hlb : ('[' : Char) ∈ List.take k S := by
              rw [hS]
              cases hkk : k with
              | zero => omega
              | succ k' => simp
            rw [hw] at hlb
            have : ('[' : Char) ∈ p ++ [']'] := List.drop_subset _ _ hlb
            rcases List.mem_append.mp this with hmem | hmem
            · exact absurd (hp '[' hmem) (by decide)
            · simp at hmem
          have hdrop : (c :: (a' ++ '[' :: (w ++ ']' :: b))).drop
                ('[' :: (p ++ [']']) : Str).length
              = ((c :: a').drop ('[' :: (p ++ [']']) : Str).length) ++
                ('[' :: (w ++ ']' :: b)) := by
            have heq : (c :: (a' ++ '[' :: (w ++ ']' :: b))) =
                (c :: a') ++ ('[' :: (w ++ ']' :: b)) := by simp
            rw [heq, List.drop_append_eq_append_drop,
              Nat.sub_eq_zero_of_le hlenle, List.drop_zero]
          rw [hdrop]
          have hlen' : (((c :: a').drop ('[' :: (p ++ [']']) : Str).length)).length ≤ n := by
            simp only [List.length_drop, List.length_cons] at *
            have hp2 : 1 ≤ ('[' :: (p ++ [']']) : Str).length := by simp
            omega
          obtain ⟨a'', b'', hab⟩ := ih _ b hlen'
          refine ⟨v ++ a'', b'', ?_⟩
          simp only [List.append_assoc, List.cons_append,
            List.singleton_append, List.nil_append] at hab ⊢
          rw [hab]
        · rw [if_neg hcond]
          have hlen' : a'.length ≤ n := by
            simp only [List.length_cons] at ha
            omega
          obtain ⟨a'', b'', hab⟩ := ih a' b hlen'
          refine ⟨c :: a'', b'', ?_⟩
          simp only [List.append_assoc, List.cons_append,
            List.singleton_append, List.nil_append] at hab ⊢
          rw [hab]
  intro a b
  exact main a.length a b le_rfl

/-! ## Properties of the placeholder scanner and the token classifier -/

theorem findallAux_valid (s : Str) :
    ∀ st : Option Str,
      (∀ acc, st = some acc → ∀ c ∈ acc, classChar c = true) →
      ∀ p ∈ findallAux st s, p ≠ [] ∧ ∀ c ∈ p, classChar c = true := by
  induction s with
  | nil =>
    intro st _ p hp
    cases st <;> simp [findallAux] at hp
  | cons c rest ih =>
    intro st hst p hp
    cases st with
    | none =>
      simp only [findallAux] at hp
      by_cases hc : c = '['
      · rw [if_pos hc] at hp
        refine ih (some []) ?_ p hp
        intro acc hacc
        injection hacc with h
        subst h
        intro x hx
        simp at hx
      · rw [if_neg hc] at hp
        exact ih none (fun acc hacc => nomatch hacc) p hp
    | some acc =>
      have hacc := hst acc rfl
      simp only [findallAux] at hp
      by_cases h1 : classChar c = true
      · rw [if_pos h1] at hp
        refine ih (some (c :: acc)) ?_ p hp
        intro acc' hacc'
        injection hacc' with h
        subst h
        intro x hx
        rcases List.mem_cons.mp hx with rfl | hx
        · exact h1
        · exact hacc x hx
      · rw [if_neg h1] at hp
        by_cases h2 : c = ']' ∧ acc ≠ []
        · rw [if_pos h2] at hp
          rcases List.mem_cons.mp hp with rfl | hp
          · refine ⟨by simpa using h2.2, ?_⟩
            intro x hx
            exact hacc x (List.mem_reverse.mp hx)
          · exact ih none (fun acc' hacc' => nomatch hacc') p hp
        · rw [if_neg h2] at hp
          by_cases h3 : c = '['
          · rw [if_pos h3] at hp
            refine ih (some []) ?_ p hp
            intro acc' hacc'
            injection hacc' with h
            subst h
            intro x hx
            simp at hx
          · rw [if_neg h3] at hp
            exact ih none (fun acc' hacc' => nomatch hacc') p hp

/-- Every name produced by the placeholder scan is a nonempty string over
the class `[A-Z_]`. -/
theorem findallBrackets_valid (s : Str) :
    ∀ p ∈ findallBrackets s, p ≠ [] ∧ ∀ c ∈ p, classChar c = true :=
  findallAux_valid s none (fun _ h => nomatch h)

theorem stepPart_brackets (st : ParseState) (part : Str) :
    (stepPart st part).brackets = st.brackets ++ findallBrackets part := by
  simp only [stepPart]
  split
  · split <;> rfl
  · split <;> rfl

theorem foldl_stepPart_brackets (parts : List Str) :
    ∀ st : ParseState, (parts.foldl stepPart st).brackets =
      st.brackets ++ (parts.map findallBrackets).flatten := by
  induction parts with
  | nil => intro st; simp
  | cons t ts ih =>
    intro st
    rw [List.foldl_cons, ih, stepPart_brackets]
    simp

/-- The bracket component of classification is exactly the concatenation of
the per-token scans, in token order, duplicates included. -/
theorem parse_state_brackets (command : Str) :
    (parse_state command).brackets =
      ((pySplitWs command).map findallBrackets).flatten := by
  rw [parse_state, foldl_stepPart_brackets]
  rfl

theorem parse_brackets_valid (command : Str) :
    ∀ p ∈ (parse_state command).brackets,
      p ≠ [] ∧ ∀ c ∈ p, classChar c = true := by
  intro p hp
  rw [parse_state_brackets] at hp
  obtain ⟨l, hl, hpl⟩ := List.mem_flatten.mp hp
  obtain ⟨t, _, rfl⟩ := List.mem_map.mp hl
  exact findallBrackets_valid t p hpl

theorem parse_command_parameters_brackets (command : Str) :
    (parse_command_parameters command).brackets = (parse_state command).brackets := rfl

/-! ## Properties of the interactive placeholder loop -/

theorem placeholderLoop_prompts (info : List (Str × ParamMeta))
    (ask : PromptSpec → Str) (ps : List Str) :
    ∀ cmd, (placeholderLoop info ask ps cmd).2 =
      ps.map (placeholderPromptSpec info) := by
  induction ps with
  | nil => intro cmd; rfl
  | cons p ps ih =>
    intro cmd
    simp only [placeholderLoop, List.map_cons]
    rw [ih]

/-- The placeholder loop cannot disturb a plain segment (no brackets, at
least one non-class character). -/
theorem placeholderLoop_keeps_plain (info : List (Str × ParamMeta))
    (ask : PromptSpec → Str) (ps : List Str)
    (hps : ∀ p ∈ ps, ∀ c ∈ p, classChar c = true)
    {u : Str} (hul : '[' ∉ u) (hur : ']' ∉ u)
    (hbad : ∃ c ∈ u, classChar c = false) :
    ∀ a b, ∃ a' b',
      (placeholderLoop info ask ps (a ++ u ++ b)).1 = a' ++ u ++ b' := by
  induction ps with
  | nil => intro a b; exact ⟨a, b, rfl⟩
  | cons p ps ih =>
    intro a b
    obtain ⟨a1, b1, h1⟩ := replaceAll_keeps_plain
      (v := ask (placeholderPromptSpec info p))
      (hps p (List.mem_cons_self p ps)) hul hur hbad a b
    obtain ⟨a2, b2, h2⟩ := ih (fun q hq => hps q (List.mem_cons_of_mem p hq)) a1 b1
    refine ⟨a2, b2, ?_⟩
    simp only [placeholderLoop]
    rw [h1]
    exact h2

/-- The placeholder loop cannot disturb an invalid bracketed span `[w]`. -/
theorem placeholderLoop_keeps_span (info : List (Str × ParamMeta))
    (ask : PromptSpec → Str) (ps : List Str)
    (hps : ∀ p ∈ ps, ∀ c ∈ p, classChar c = true)
    {w : Str} (hwl : '[' ∉ w) (hwr : ']' ∉ w)
    (hbad : ∃ c ∈ w, classChar c = false) :
    ∀ a b, ∃ a' b',
      (placeholderLoop info ask ps (a ++ ('[' :: w ++ [']']) ++ b)).1 =
        a' ++ ('[' :: w ++ [']']) ++ b' := by
  induction ps with
  | nil => intro a b; exact ⟨a, b, rfl⟩
  | cons p ps ih =>
    intro a b
    obtain ⟨a1, b1, h1⟩ := replaceAll_keeps_span
      (v := ask (placeholderPromptSpec info p))
      (hps p (List.mem_cons_self p ps)) hwl hwr hbad a b
    obtain ⟨a2, b2, h2⟩ := ih (fun q hq => hps q (List.mem_cons_of_mem p hq)) a1 b1
    refine ⟨a2, b2, ?_⟩
    simp only [placeholderLoop]
    rw [h1]
    exact h2

/-! ## The reconstruction loop -/

/-- Closed form of the reconstruction loop: the base command followed by
`" --name=value"` for exactly the nonempty-valued parameters, in order. -/
theorem reconstructLoop_eq (l : List (Str × Str)) :
    ∀ base : Str, reconstructLoop base l =
      base ++ (l.filterMap (fun pv =>
        if pv.2 = [] then none
        else some (" --".toList ++ pv.1 ++ '=' :: pv.2))).flatten := by
  induction l with
  | nil => intro base; simp [reconstructLoop]
  | cons pv l ih =>
    intro base
    rcases pv with ⟨param, value⟩
    by_cases hv : value = []
    · simp only [reconstructLoop, hv, if_pos rfl, List.filterMap_cons]
      rw [ih]
      simp
    · simp only [reconstructLoop, if_neg hv, List.filterMap_cons]
      rw [ih]
      simp [hv, List.append_assoc]

/-! ## The token case analysis of the specification (for the classifier) -/

/-- The classifier state without the bracket component (the specification's
token case analysis concerns `baseCommand`, `boundParams` and the awaiting
name only). -/
structure ClassifyState where
  base : List Str
  params : List (Str × Option Str)
  current : Option Str
deriving DecidableEq

/-- The specification's per-token case analysis, written from its words:
a token starting with `--` and containing `=` is split on its first `=` and
recorded as name (prefix stripped) mapped to the remainder; a token starting
with `--` without `=` records the name as awaiting a value (bound to none);
a token not starting with `--` while a name is awaiting binds that name to
the token's literal text and clears the awaiting state; any other token is
appended to the base command. -/
def stepSpec (st : ClassifyState) (tok : Str) : ClassifyState :=
  if listPrefixOf ("--".toList) tok then
    if '=' ∈ tok then
      let name := (tok.drop 2).takeWhile (· ≠ '=')
      let value := (tok.dropWhile (· ≠ '=')).drop 1
      { st with params := dictInsert name (some value) st.params }
    else
      let name := tok.drop 2
      { st with params := dictInsert name none st.params, current := some name }
  else
    match st.current with
    | some name =>
      { st with params := dictInsert name (some tok) st.params, current := none }
    | none => { st with base := st.base ++ [tok] }

/-- The projection of the implementation's loop state that forgets the
bracket list. -/
def projState (st : ParseState) : ClassifyState := ⟨st.base, st.params, st.current⟩

/-- The implementation's token step agrees with the specification's case
analysis on the base/params/awaiting components, for every state and token. -/
theorem stepPart_agrees (st : ParseState) (tok : Str) :
    projState (stepPart st tok) = stepSpec (projState st) tok := by
  by_cases h1 : listPrefixOf ("--".toList) tok = true
  · obtain ⟨t, rfl⟩ := listPrefixOf_iff.mp h1
    have hl : ("--".toList : Str) ++ t = '-' :: '-' :: t := rfl
    rw [hl] at h1 ⊢
    by_cases h2 : '=' ∈ ('-' :: '-' :: t : Str)
    · have hname : (('-' :: '-' :: t : Str).takeWhile (· ≠ '=')).drop 2 =
          (('-' :: '-' :: t : Str).drop 2).takeWhile (· ≠ '=') := by
        simp [List.takeWhile_cons]
      simp only [stepPart, stepSpec]
      rw [if_pos h1, if_pos h1, if_pos h2, if_pos h2]
      dsimp only [projState]
      rw [hname]
    · simp only [stepPart, stepSpec]
      rw [if_pos h1, if_pos h1, if_neg h2, if_neg h2]
      dsimp only [projState]
  · simp only [stepPart, stepSpec]
    rw [if_neg h1, if_neg h1]
    dsimp only [projState]
    cases st.current <;> rfl

theorem alookup_dictInsert_self (k : Str) (v : α) (l : List (Str × α)) :
    alookup k (dictInsert k v l) = some v := by
  induction l with
  | nil => simp [dictInsert, alookup]
  | cons kv rest ih =>
    rcases kv with ⟨k', v'⟩
    by_cases h : k' = k
    · simp [dictInsert, h, alookup]
    · simp [dictInsert, h, alookup, ih]

theorem alookup_dictInsert_ne {k k' : Str} (h : k ≠ k') (v : α)
    (l : List (Str × α)) : alookup k (dictInsert k' v l) = alookup k l := by
  induction l with
  | nil => simp [dictInsert, alookup, Ne.symm h]
  | cons kv rest ih =>
    rcases kv with ⟨k'', v''⟩
    by_cases hx : k'' = k'
    · subst hx
      simp [dictInsert, alookup, Ne.symm h]
    · simp only [dictInsert, if_neg hx, alookup]
      split_ifs <;> simp [ih]

/-- The full classification over the specification's step function. -/
def classifySpec (command : Str) : ClassifyState :=
  (pySplitWs command).foldl stepSpec ⟨[], [], none⟩

/-- Whole-command agreement: folding the implementation step and folding the
specification's case analysis over the whitespace tokens produce the same
base command, bound-parameter map and awaiting name. -/
theorem parse_state_agrees (command : Str) :
    projState (parse_state command) = classifySpec command := by
  rw [parse_state, classifySpec]
  have h : ∀ (parts : List Str) (st : ParseState),
      projState (parts.foldl stepPart st) = parts.foldl stepSpec (projState st) := by
    intro parts
    induction parts with
    | nil => intro st; rfl
    | cons t ts ih =>
      intro st
      rw [List.foldl_cons, List.foldl_cons, ih, stepPart_agrees]
  exact h _ _

/-- The token forms that re-bind the flag `n` inside the loop:
`--n=value` tokens. -/
def reassignsFlag (n tok : Str) : Prop :=
  listPrefixOf ("--".toList) tok = true ∧ '=' ∈ tok ∧
    (tok.takeWhile (· ≠ '=')).drop 2 = n

instance (n tok : Str) : Decidable (reassignsFlag n tok) := by
  unfold reassignsFlag
  exact inferInstance

theorem stepPart_awaiting_unbound {n : Str} {st : ParseState} (tok : Str)
    (hinv : st.current = some n → alookup n st.params = some none)
    (hno : ¬ reassignsFlag n tok) :
    (stepPart st tok).current = some n →
      alookup n (stepPart st tok).params = some none := by
  intro hcur
  by_cases h1 : listPrefixOf ("--".toList) tok = true
  · by_cases h2 : '=' ∈ tok
    · simp only [stepPart] at hcur ⊢
      rw [if_pos h1, if_pos h2] at hcur ⊢
      have hname : (tok.takeWhile (· ≠ '=')).drop 2 ≠ n :=
        fun he => hno ⟨h1, h2, he⟩
      dsimp at hcur ⊢
      rw [alookup_dictInsert_ne (fun he => hname he.symm)]
      exact hinv hcur
    · simp only [stepPart] at hcur ⊢
      rw [if_pos h1, if_neg h2] at hcur ⊢
      dsimp at hcur ⊢
      injection hcur with hcur
      rw [← hcur]
      exact alookup_dictInsert_self _ _ _
  · simp only [stepPart] at hcur ⊢
    rw [if_neg h1] at hcur ⊢
    cases hc : st.current <;> rw [hc] at hcur <;> simp at hcur

theorem stepPart_awaiting_present {n : Str} {st : ParseState} (tok : Str)
    (hinv : st.current = some n → (alookup n st.params).isSome = true) :
    (stepPart st tok).current = some n →
      (alookup n (stepPart st tok).params).isSome = true := by
  intro hcur
  by_cases h1 : listPrefixOf ("--".toList) tok = true
  · by_cases h2 : '=' ∈ tok
    · simp only [stepPart] at hcur ⊢
      rw [if_pos h1, if_pos h2] at hcur ⊢
      dsimp at hcur ⊢
      by_cases hname : (tok.takeWhile (· ≠ '=')).drop 2 = n
      · rw [← hname, alookup_dictInsert_self]
        rfl
      · rw [alookup_dictInsert_ne (fun he => hname he.symm)]
        exact hinv hcur
    · simp only [stepPart] at hcur ⊢
      rw [if_pos h1, if_neg h2] at hcur ⊢
      dsimp at hcur ⊢
      injection hcur with hcur
      rw [← hcur, alookup_dictInsert_self]
      rfl
  · simp only [stepPart] at hcur ⊢
    rw [if_neg h1] at hcur ⊢
    cases hc : st.current <;> rw [hc] at hcur <;> simp at hcur

/-! ## Lemmas about `splitlines`, `pyStrip` and the newline join -/

theorem slAux_cons_nb {c : Char} (h : isLineBoundary c = false) (acc s : Str) :
    splitlinesAux acc (c :: s) = splitlinesAux (c :: acc) s := by
  cases s with
  | nil => simp [splitlinesAux, h]
  | cons d rest => simp [splitlinesAux, h]

theorem slAux_cons_nl (acc s : Str) :
    splitlinesAux acc ('\n' :: s) = acc.reverse :: splitlinesAux [] s := by
  cases s with
  | nil => simp [splitlinesAux, show isLineBoundary '\n' = true from by decide]
  | cons d rest =>
    simp only [splitlinesAux]
    rw [if_pos (by decide : isLineBoundary '\n' = true),
      if_neg (by simp : ¬(('\n' : Char) = '\r' ∧ d = '\n'))]

theorem slAux_walk {u : Str} (hu : ∀ c ∈ u, isLineBoundary c = false) :
    ∀ (acc t : Str), splitlinesAux acc (u ++ t) = splitlinesAux (u.reverse ++ acc) t := by
  induction u with
  | nil => intro acc t; simp
  | cons c u' ih =>
    intro acc t
    rw [List.cons_append, slAux_cons_nb (hu c (List.mem_cons_self c u')),
      ih (fun x hx => hu x (List.mem_cons_of_mem c hx))]
    simp

/-- Applying `splitlines` to a newline join of nonempty boundary-free lines gives the
lines back. -/
theorem splitlines_joinWith (cmds : List Str)
    (hbf : ∀ c ∈ cmds, ∀ ch ∈ c, isLineBoundary ch = false)
    (hne : ∀ c ∈ cmds, c ≠ []) :
    splitlines (joinWith ['\n'] cmds) = cmds := by
  induction cmds with
  | nil => rfl
  | cons c rest ih =>
    cases rest with
    | nil =>
      show splitlinesAux [] (joinWith ['\n'] [c]) = [c]
      have hj : joinWith ['\n'] [c] = c ++ [] := by simp [joinWith]
      rw [hj, slAux_walk (hbf c (by simp)) [] []]
      have hc := hne c (by simp)
      simp [splitlinesAux, hc]
    | cons c' rest' =>
      show splitlinesAux [] (joinWith ['\n'] (c :: c' :: rest')) = c :: c' :: rest'
      have hj : joinWith ['\n'] (c :: c' :: rest') =
          c ++ ('\n' :: joinWith ['\n'] (c' :: rest')) := by
        simp [joinWith]
      rw [hj, slAux_walk (hbf c (by simp)) [] _, slAux_cons_nl]
      simp only [List.append_nil, List.reverse_reverse]
      have hsl : splitlinesAux [] (joinWith ['\n'] (c' :: rest')) = c' :: rest' :=
        ih (fun x hx => hbf x (List.mem_cons_of_mem c hx))
          (fun x hx => hne x (List.mem_cons_of_mem c hx))
      rw [hsl]

theorem slAux_bf_aux : ∀ (n : Nat) (s : Str), s.length ≤ n → ∀ acc : Str,
    (∀ c ∈ acc, isLineBoundary c = false) →
    ∀ l ∈ splitlinesAux acc s, ∀ c ∈ l, isLineBoundary c = false := by
  intro n
  induction n with
  | zero =>
    intro s hs acc hacc l hl
    have : s = [] := List.length_eq_zero.mp (Nat.le_zero.mp hs)
    subst this
    simp only [splitlinesAux] at hl
    by_cases ha : acc = []
    · rw [if_pos ha] at hl
      simp at hl
    · rw [if_neg ha] at hl
      simp only [List.mem_singleton] at hl
      subst hl
      intro c hc
      exact hacc c (List.mem_reverse.mp hc)
  | succ n ih =>
    intro s hs acc hacc l hl
    cases s with
    | nil =>
      simp only [splitlinesAux] at hl
      by_cases ha : acc = []
      · rw [if_pos ha] at hl
        simp at hl
      · rw [if_neg ha] at hl
        simp only [List.mem_singleton] at hl
        subst hl
        intro c hc
        exact hacc c (List.mem_reverse.mp hc)
    | cons c s' =>
      cases s' with
      | nil =>
        simp only [splitlinesAux] at hl
        by_cases hb : isLineBoundary c = true
        · rw [if_pos hb] at hl
          simp only [List.mem_singleton] at hl
          subst hl
          intro x hx
          exact hacc x (List.mem_reverse.mp hx)
        · rw [if_neg hb] at hl
          simp only [List.mem_singleton] at hl
          subst hl
          intro x hx
          rcases List.mem_cons.mp (List.mem_reverse.mp hx) with rfl | hx
          · simpa using hb
          · exact hacc x hx
      | cons d rest =>
        simp only [splitlinesAux] at hl
        simp only [List.length_cons] at hs
        by_cases hb : isLineBoundary c = true
        · rw [if_pos hb] at hl
          by_cases hrn : c = '\r' ∧ d = '\n'
          · rw [if_pos hrn] at hl
            rcases List.mem_cons.mp hl with rfl | hl
            · intro x hx
              exact hacc x (List.mem_reverse.mp hx)
            · exact ih rest (by omega) [] (by simp) l hl
          · rw [if_neg hrn] at hl
            rcases List.mem_cons.mp hl with rfl | hl
            · intro x hx
              exact hacc x (List.mem_reverse.mp hx)
            · exact ih (d :: rest) (by simp; omega) [] (by simp) l hl
        · rw [if_neg hb] at hl
          refine ih (d :: rest) (by simp; omega) (c :: acc) ?_ l hl
          intro x hx
          rcases List.mem_cons.mp hx with rfl | hx
          · simpa using hb
          · exact hacc x hx

/-- Every element of `splitlines s` is free of line-boundary characters. -/
theorem splitlines_bf (s : Str) :
    ∀ l ∈ splitlines s, ∀ c ∈ l, isLineBoundary c = false :=
  slAux_bf_aux s.length s le_rfl [] (by simp)

theorem slAux_within_aux : ∀ (n : Nat) (s : Str), s.length ≤ n → ∀ acc : Str,
    ∀ l ∈ splitlinesAux acc s, ∃ u v, acc.reverse ++ s = u ++ l ++ v := by
  intro n
  induction n with
  | zero =>
    intro s hs acc l hl
    have : s = [] := List.length_eq_zero.mp (Nat.le_zero.mp hs)
    subst this
    simp only [splitlinesAux] at hl
    by_cases ha : acc = []
    · rw [if_pos ha] at hl
      simp at hl
    · rw [if_neg ha] at hl
      simp only [List.mem_singleton] at hl
      subst hl
      exact ⟨[], [], by simp⟩
  | succ n ih =>
    intro s hs acc l hl
    cases s with
    | nil =>
      simp only [splitlinesAux] at hl
      by_cases ha : acc = []
      · rw [if_pos ha] at hl
        simp at hl
      · rw [if_neg ha] at hl
        simp only [List.mem_singleton] at hl
        subst hl
        exact ⟨[], [], by simp⟩
    | cons c s' =>
      cases s' with
      | nil =>
        simp only [splitlinesAux] at hl
        by_cases hb : isLineBoundary c = true
        · rw [if_pos hb] at hl
          simp only [List.mem_singleton] at hl
          subst hl
          exact ⟨[], [c], by simp⟩
        · rw [if_neg hb] at hl
          simp only [List.mem_singleton] at hl
          subst hl
          exact ⟨[], [], by simp⟩
      | cons d rest =>
        simp only [splitlinesAux] at hl
        simp only [List.length_cons] at hs
        by_cases hb : isLineBoundary c = true
        · rw [if_pos hb] at hl
          by_cases hrn : c = '\r' ∧ d = '\n'
          · rw [if_pos hrn] at hl
            rcases List.mem_cons.mp hl with rfl | hl
            · exact ⟨[], c :: d :: rest, by simp⟩
            · obtain ⟨u, v, huv⟩ := ih rest (by omega) [] l hl
              simp only [List.reverse_nil, List.nil_append] at huv
              refine ⟨acc.reverse ++ c :: d :: u, v, ?_⟩
              rw [huv]
              simp [List.append_assoc]
          · rw [if_neg hrn] at hl
            rcases List.mem_cons.mp hl with rfl | hl
            · exact ⟨[], c :: d :: rest, by simp⟩
            · obtain ⟨u, v, huv⟩ := ih (d :: rest) (by simp; omega) [] l hl
              simp only [List.reverse_nil, List.nil_append] at huv
              refine ⟨acc.reverse ++ c :: u, v, ?_⟩
              rw [show (c :: d :: rest : Str) = c :: (d :: rest) from rfl, huv]
              simp [List.append_assoc]
        · rw [if_neg hb] at hl
          obtain ⟨u, v, huv⟩ := ih (d :: rest) (by simp; omega) (c :: acc) l hl
          refine ⟨u, v, ?_⟩
          rw [← huv]
          simp

/-- Every element of `splitlines s` occurs contiguously inside `s`. -/
theorem splitlines_within (s : Str) :
    ∀ l ∈ splitlines s, ∃ u v, s = u ++ l ++ v := by
  intro l hl
  obtain ⟨u, v, huv⟩ := slAux_within_aux s.length s le_rfl [] l hl
  exact ⟨u, v, by simpa using huv⟩

theorem dropWhile_decomp (p : Char → Bool) (s : Str) :
    ∃ u, s = u ++ s.dropWhile p := by
  induction s with
  | nil => exact ⟨[], rfl⟩
  | cons c rest ih =>
    by_cases hc : p c = true
    · rw [List.dropWhile_cons, if_pos hc]
      obtain ⟨u, hu⟩ := ih
      exact ⟨c :: u, by rw [List.cons_append, ← hu]⟩
    · rw [List.dropWhile_cons, if_neg hc]
      exact ⟨[], rfl⟩

theorem mem_of_mem_dropWhile (p : Char → Bool) {c : Char} {l : Str}
    (h : c ∈ l.dropWhile p) : c ∈ l := by
  obtain ⟨u, hu⟩ := dropWhile_decomp p l
  rw [hu]
  exact List.mem_append_right u h

theorem dropWhile_head_false (p : Char → Bool) :
    ∀ (s : Str) (c : Char) (t : Str), s.dropWhile p = c :: t → p c = false := by
  intro s
  induction s with
  | nil => intro c t h; exact nomatch h
  | cons d rest ih =>
    intro c t h
    rw [List.dropWhile_cons] at h
    by_cases hd : p d = true
    · rw [if_pos hd] at h
      exact ih c t h
    · rw [if_neg hd] at h
      injection h with h1 _
      subst h1
      simpa using hd

theorem dropWhile_idem (p : Char → Bool) (s : Str) :
    (s.dropWhile p).dropWhile p = s.dropWhile p := by
  cases hd : s.dropWhile p with
  | nil => rfl
  | cons c t =>
    rw [List.dropWhile_cons, if_neg]
    rw [dropWhile_head_false p s c t hd]
    simp

theorem pyStrip_subset (s : Str) : ∀ c ∈ pyStrip s, c ∈ s := by
  intro c hc
  simp only [pyStrip, List.mem_reverse] at hc
  exact mem_of_mem_dropWhile _
    (List.mem_reverse.mp (mem_of_mem_dropWhile _ hc))

theorem pyStrip_decomp (s : Str) : ∃ u v, s = u ++ pyStrip s ++ v := by
  obtain ⟨u, hu⟩ := dropWhile_decomp pyIsSpace s
  obtain ⟨u', hu'⟩ := dropWhile_decomp pyIsSpace (s.dropWhile pyIsSpace).reverse
  refine ⟨u, u'.reverse, ?_⟩
  have hA : s.dropWhile pyIsSpace = pyStrip s ++ u'.reverse := by
    have h := congrArg List.reverse hu'
    rw [List.reverse_reverse, List.reverse_append] at h
    exact h
  rw [List.append_assoc, ← hA]
  exact hu

theorem pyStrip_idem (s : Str) : pyStrip (pyStrip s) = pyStrip s := by
  have hrev : (pyStrip s).reverse
      = ((s.dropWhile pyIsSpace).reverse).dropWhile pyIsSpace := by
    simp [pyStrip]
  have hback : (pyStrip s).reverse.dropWhile pyIsSpace = (pyStrip s).reverse := by
    rw [hrev, dropWhile_idem]
  have hfront : (pyStrip s).dropWhile pyIsSpace = pyStrip s := by
    cases hps : pyStrip s with
    | nil => rfl
    | cons c t =>
      rw [List.dropWhile_cons, if_neg]
      obtain ⟨u', hu'⟩ := dropWhile_decomp pyIsSpace (s.dropWhile pyIsSpace).reverse
      have hA : s.dropWhile pyIsSpace = pyStrip s ++ u'.reverse := by
        have h := congrArg List.reverse hu'
        rw [List.reverse_reverse, List.reverse_append] at h
        exact h
      rw [hps, List.cons_append] at hA
      rw [dropWhile_head_false pyIsSpace s c (t ++ u'.reverse) hA]
      simp
  show ((((pyStrip s).dropWhile pyIsSpace).reverse).dropWhile pyIsSpace).reverse = pyStrip s
  rw [hfront, hback, List.reverse_reverse]

theorem filterMap_id_of {f : Str → Option Str} :
    ∀ L : List Str, (∀ l ∈ L, f l = some l) → L.filterMap f = L := by
  intro L
  induction L with
  | nil => intro _; rfl
  | cons c rest ih =>
    intro h
    rw [List.filterMap_cons, h c (List.mem_cons_self c rest),
      ih (fun x hx => h x (List.mem_cons_of_mem c hx))]

/-- A newline-free pattern occurring inside `a ++ '\n' :: b` occurs inside
`a` or inside `b`. -/
theorem nlfree_within_append {pat a b : Str} (hnl : '\n' ∉ pat)
    (h : ∃ u v, a ++ '\n' :: b = u ++ pat ++ v) :
    (∃ u v, a = u ++ pat ++ v) ∨ (∃ u v, b = u ++ pat ++ v) := by
  obtain ⟨u, v, h⟩ := h
  have h' : a ++ ('\n' :: b) = u ++ (pat ++ v) := by
    rw [h]
    simp [List.append_assoc]
  rcases List.append_eq_append_iff.mp h' with ⟨w, hw1, hw2⟩ | ⟨w, hw1, hw2⟩
  · -- u = a ++ w and '\n' :: b = w ++ (pat ++ v)
    cases w with
    | nil =>
      simp only [List.nil_append] at hw2
      cases pat with
      | nil => exact Or.inl ⟨a, [], by simp⟩
      | cons pc pt =>
        injection hw2 with h1 _
        exact absurd (h1 ▸ List.mem_cons_self pc pt) hnl
    | cons wc wt =>
      injection hw2 with h1 h2
      exact Or.inr ⟨wt, v, by rw [h2]; simp [List.append_assoc]⟩
  · -- a = u ++ w and pat ++ v = w ++ ('\n' :: b)
    rcases List.append_eq_append_iff.mp hw2.symm with ⟨t, ht1, ht2⟩ | ⟨t, ht1, ht2⟩
    · -- pat = w ++ t and '\n' :: b = t ++ v
      cases t with
      | nil =>
        rw [List.append_nil] at ht1
        exact Or.inl ⟨u, [], by rw [hw1, ht1]; simp⟩
      | cons tc tt =>
        injection ht2 with h1 _
        exact absurd (by rw [ht1, ← h1]; simp : '\n' ∈ pat) hnl
    · -- w = pat ++ t
      exact Or.inl ⟨u, t, by rw [hw1, ht1]; simp [List.append_assoc]⟩

/-- A nonempty newline-free pattern occurring inside a newline join occurs
inside one of the joined strings. -/
theorem within_joinWith_nl {pat : Str} (hnl : '\n' ∉ pat) (hpat : pat ≠ []) :
    ∀ cmds : List Str, (∃ u v, joinWith ['\n'] cmds = u ++ pat ++ v) →
      ∃ c ∈ cmds, ∃ u v, c = u ++ pat ++ v := by
  intro cmds
  induction cmds with
  | nil =>
    rintro ⟨u, v, h⟩
    rcases List.append_eq_nil.mp h.symm with ⟨h1, _⟩
    rcases List.append_eq_nil.mp h1 with ⟨_, h2⟩
    exact absurd h2 hpat
  | cons c rest ih =>
    cases rest with
    | nil =>
      intro h
      exact ⟨c, by simp, by simpa [joinWith] using h⟩
    | cons c' rest' =>
      intro h
      have hj : joinWith ['\n'] (c :: c' :: rest') =
          c ++ ('\n' :: joinWith ['\n'] (c' :: rest')) := by
        simp [joinWith]
      rw [hj] at h
      rcases nlfree_within_append hnl h with hc | hrest
      · exact ⟨c, by simp, hc⟩
      · obtain ⟨d, hd, hduv⟩ := ih hrest
        exact ⟨d, List.mem_cons_of_mem c hd, hduv⟩

/-! ## Branch lemmas for `prompt_for_parameters` -/

theorem prompt_for_parameters_pass (describe : Str → Str)
    (jsonParse : Str → Option (List (Str × ParamMeta)))
    (ask : PromptSpec → Str) (command : Str)
    (hp : (parse_command_parameters command).params = [])
    (hb : (parse_command_parameters command).brackets = []) :
    prompt_for_parameters describe jsonParse ask command =
      ⟨command, false, false, []⟩ := by
  simp only [prompt_for_parameters]
  rw [if_pos ⟨hp, hb⟩]

theorem prompt_for_parameters_placeholder (describe : Str → Str)
    (jsonParse : Str → Option (List (Str × ParamMeta)))
    (ask : PromptSpec → Str) (command : Str)
    (hb : (parse_command_parameters command).brackets ≠ []) :
    prompt_for_parameters describe jsonParse ask command =
      ⟨(placeholderLoop (get_parameter_info describe jsonParse command).info ask
          (parse_command_parameters command).brackets command).1, true, false,
        (placeholderLoop (get_parameter_info describe jsonParse command).info ask
          (parse_command_parameters command).brackets command).2⟩ := by
  simp only [prompt_for_parameters]
  rw [if_neg hb, if_neg (fun hc => hb hc.2), if_neg hb]

theorem prompt_for_parameters_bound (describe : Str → Str)
    (jsonParse : Str → Option (List (Str × ParamMeta)))
    (ask : PromptSpec → Str) (command : Str)
    (hb : (parse_command_parameters command).brackets = [])
    (hp : (parse_command_parameters command).params ≠ []) :
    prompt_for_parameters describe jsonParse ask command =
      ⟨reconstructLoop (parse_command_parameters command).baseCommand
        ((parse_command_parameters command).params.map
          (fun pv => (pv.1, ask (boundPromptSpec pv.1 pv.2)))), false, true,
        (parse_command_parameters command).params.map
          (fun pv => boundPromptSpec pv.1 pv.2)⟩ := by
  simp only [prompt_for_parameters]
  rw [if_neg (fun hc => hp hc.1), if_pos hb]

/-- With empty metadata every placeholder prompt is the bare-name fallback:
the synthesized description `Value for <name>`, no examples, empty default. -/
theorem placeholderPromptSpec_nil (p : Str) :
    placeholderPromptSpec [] p =
      ⟨p, some ("Value for ".toList ++ p), none, []⟩ := by
  simp only [placeholderPromptSpec, alookup]
  rw [if_neg]
  · simp
  · intro h
    have := congrArg List.length h
    simp at this

theorem parse_awaiting_present (command : Str) (n : Str)
    (h : (parse_state command).current = some n) :
    (alookup n (parse_state command).params).isSome = true := by
  have main : ∀ (parts : List Str) (st : ParseState),
      (st.current = some n → (alookup n st.params).isSome = true) →
      (parts.foldl stepPart st).current = some n →
      (alookup n (parts.foldl stepPart st).params).isSome = true := by
    intro parts
    induction parts with
    | nil => intro st hinv hcur; exact hinv hcur
    | cons tok parts ih =>
      intro st hinv hcur
      exact ih (stepPart st tok) (stepPart_awaiting_present tok hinv) hcur
  exact main (pySplitWs command) ⟨[], [], none, []⟩ (fun hc => nomatch hc) h

theorem parse_awaiting_unbound (command : Str) (n : Str)
    (hno : ∀ tok ∈ pySplitWs command, ¬ reassignsFlag n tok)
    (h : (parse_state command).current = some n) :
    alookup n (parse_state command).params = some none := by
  have main : ∀ (parts : List Str), (∀ tok ∈ parts, ¬ reassignsFlag n tok) →
      ∀ st : ParseState,
      (st.current = some n → alookup n st.params = some none) →
      (parts.foldl stepPart st).current = some n →
      alookup n (parts.foldl stepPart st).params = some none := by
    intro parts
    induction parts with
    | nil => intro _ st hinv hcur; exact hinv hcur
    | cons tok parts ih =>
      intro hno st hinv hcur
      exact ih (fun t ht => hno t (List.mem_cons_of_mem tok ht)) (stepPart st tok)
        (stepPart_awaiting_unbound tok hinv (hno tok (List.mem_cons_self tok parts)))
        hcur
  exact main (pySplitWs command) hno ⟨[], [], none, []⟩ (fun hc => nomatch hc) h

/-! ## The claims -/

/-- C1 (counterexample): classification does not deduplicate the placeholder
list.  For a command containing `[A]` three times and `[B]` once the list is
`[A, A, A, B]`, not `[A, B]`: the name `A` appears three times. -/
theorem C1_counterexample :
    (parse_command_parameters ("do [A] [A] [A] [B]".toList)).brackets =
      ["A".toList, "A".toList, "A".toList, "B".toList] ∧
    (parse_command_parameters ("do [A] [A] [A] [B]".toList)).brackets ≠
      ["A".toList, "B".toList] ∧
    ¬ ((parse_command_parameters ("do [A] [A] [A] [B]".toList)).brackets.count
        ("A".toList) ≤ 1) := by
  decide

/-- C1 (amended): for every command string, classification produces the
placeholders list containing every bracket-placeholder occurrence in scan
order with duplicates preserved (the concatenation of the per-token regex
scans); in particular a command containing `[A]` three times and `[B]` once
yields `[A, A, A, B]`. -/
theorem C1_placeholder_occurrences :
    (∀ command : Str, (parse_command_parameters command).brackets =
      ((pySplitWs command).map findallBrackets).flatten) ∧
    (parse_command_parameters ("do [A] [A] [A] [B]".toList)).brackets =
      ["A".toList, "A".toList, "A".toList, "B".toList] := by
  constructor
  · intro command
    exact parse_state_brackets command
  · decide

/-- C2 (counterexample): when the sentinel phrase occurs inside a larger
response, `split_commands` returns the entire raw response as its single
element, not the bare sentinel phrase. -/
theorem C2_counterexample :
    containsSub sentinel ("echo hi\nRequest cannot be fulfilled.".toList) = true ∧
    split_commands ("echo hi\nRequest cannot be fulfilled.".toList) =
      [("echo hi\nRequest cannot be fulfilled.".toList)] ∧
    ("echo hi\nRequest cannot be fulfilled.".toList) ≠ sentinel := by
  decide

/-- C2 (amended): for every raw model response that contains the sentinel
phrase anywhere, `split_commands` returns a sequence of exactly one element,
and that element is the entire raw response (which equals the sentinel phrase
only when the response consists of exactly that phrase). -/
theorem C2_sentinel_whole_response (r : Str)
    (h : containsSub sentinel r = true) : split_commands r = [r] := by
  simp only [split_commands]
  rw [if_pos h]

/-- Witness for C2: the sentinel-only response. -/
theorem C2_witness : split_commands sentinel = [sentinel] :=
  C2_sentinel_whole_response sentinel (by decide)

/-- C9: for every command whose extracted placeholder list is empty, metadata
resolution returns the empty mapping and never invokes the external
`CommandGenerator` collaborator (and prints no warning). -/
theorem C9_no_llm_without_placeholders (describe : Str → Str)
    (jsonParse : Str → Option (List (Str × ParamMeta))) (command : Str)
    (h : findallBrackets command = []) :
    get_parameter_info describe jsonParse command = ⟨[], false, false⟩ := by
  simp [get_parameter_info, h]

/-- Witness for C9: a concrete placeholder-free command. -/
theorem C9_witness :
    get_parameter_info (fun _ => []) (fun _ => none)
      ("gcloud projects list".toList) = ⟨[], false, false⟩ :=
  C9_no_llm_without_placeholders _ _ _ (by decide)

/-- C3: whenever classification yields a nonempty placeholder list,
interactive resolution runs in placeholder mode only: the bound-parameter
prompting/reconstruction branch is not entered, the result is produced by
the literal-replacement placeholder loop on the original command text, and
any bound-flag text made of characters outside the placeholder alphabet and
brackets passes through into the resolved command unchanged. -/
theorem C3_placeholder_precedence (describe : Str → Str)
    (jsonParse : Str → Option (List (Str × ParamMeta)))
    (ask : PromptSpec → Str) (command : Str)
    (h : (parse_command_parameters command).brackets ≠ []) :
    (prompt_for_parameters describe jsonParse ask command).usedPlaceholderMode = true ∧
    (prompt_for_parameters describe jsonParse ask command).usedBoundMode = false ∧
    (prompt_for_parameters describe jsonParse ask command).result =
      (placeholderLoop (get_parameter_info describe jsonParse command).info ask
        (parse_command_parameters command).brackets command).1 ∧
    (∀ u a b, command = a ++ u ++ b → '[' ∉ u → ']' ∉ u →
      (∃ c ∈ u, classChar c = false) →
      ∃ a' b', (prompt_for_parameters describe jsonParse ask command).result =
        a' ++ u ++ b') := by
  rw [prompt_for_parameters_placeholder describe jsonParse ask command h]
  refine ⟨rfl, rfl, rfl, ?_⟩
  intro u a b hcmd hul hur hbad
  subst hcmd
  exact placeholderLoop_keeps_plain _ ask _
    (fun p hp => (parse_brackets_valid _ p hp).2) hul hur hbad a b

/-- Witness for C3: a command with one placeholder and one fully valued
bound flag; the flag text `--x=1-2` survives verbatim. -/
theorem C3_witness :
    (prompt_for_parameters (fun _ => []) (fun _ => none) (fun _ => "v".toList)
      ("do [A] --x=1-2".toList)).usedBoundMode = false ∧
    ∃ a' b', (prompt_for_parameters (fun _ => []) (fun _ => none)
      (fun _ => "v".toList) ("do [A] --x=1-2".toList)).result =
        a' ++ ("--x=1-2".toList) ++ b' := by
  have h := C3_placeholder_precedence (fun _ => []) (fun _ => none)
    (fun _ => "v".toList) ("do [A] --x=1-2".toList) (by decide)
  exact ⟨h.2.1, h.2.2.2 ("--x=1-2".toList) ("do [A] ".toList) []
    (by decide) (by decide) (by decide) (by decide)⟩

/-- C4: reconstruction returns the base command followed by `" --name=value"`
for exactly the parameters with nonempty resolved values, in insertion
order; empty-valued parameters are dropped.  In bound-parameter mode the
resolver's result is this reconstruction applied to the space-joined base
tokens and the prompted values.  For resolved values
`{zone ↦ "", name ↦ "foo"}` the result contains `--name=foo` and no
`--zone`. -/
theorem C4_reconstruction :
    (∀ (base : Str) (updated : List (Str × Str)),
      reconstructLoop base updated =
        base ++ (updated.filterMap (fun pv =>
          if pv.2 = [] then none
          else some (" --".toList ++ pv.1 ++ '=' :: pv.2))).flatten) ∧
    (∀ (describe : Str → Str) (jsonParse : Str → Option (List (Str × ParamMeta)))
        (ask : PromptSpec → Str) (command : Str),
      (parse_command_parameters command).brackets = [] →
      (parse_command_parameters command).params ≠ [] →
      (prompt_for_parameters describe jsonParse ask command).result =
        reconstructLoop (joinWith [' '] (parse_state command).base)
          ((parse_command_parameters command).params.map
            (fun pv => (pv.1, ask (boundPromptSpec pv.1 pv.2))))) ∧
    (reconstructLoop ("gcloud compute".toList)
        [("zone".toList, []), ("name".toList, "foo".toList)] =
      "gcloud compute --name=foo".toList ∧
    containsSub ("--zone".toList)
      (reconstructLoop ("gcloud compute".toList)
        [("zone".toList, []), ("name".toList, "foo".toList)]) = false) := by
  refine ⟨fun base updated => reconstructLoop_eq updated base, ?_, by decide⟩
  intro describe jsonParse ask command hb hp
  rw [prompt_for_parameters_bound describe jsonParse ask command hb hp]
  rfl

/-- Witness for C4: accepting the defaults for `run --zone --name=foo`
(an unbound `zone` defaulting to empty, `name` bound to `foo`) produces
`run --name=foo`. -/
theorem C4_witness :
    (prompt_for_parameters (fun _ => []) (fun _ => none)
      (fun spec => spec.defaultVal) ("run --zone --name=foo".toList)).result =
      reconstructLoop (joinWith [' ']
        (parse_state ("run --zone --name=foo".toList)).base)
        ((parse_command_parameters ("run --zone --name=foo".toList)).params.map
          (fun pv => (pv.1, (boundPromptSpec pv.1 pv.2).defaultVal))) ∧
    (prompt_for_parameters (fun _ => []) (fun _ => none)
      (fun spec => spec.defaultVal) ("run --zone --name=foo".toList)).result =
      "run --name=foo".toList := by
  constructor
  · exact (C4_reconstruction.2.1 (fun _ => []) (fun _ => none)
      (fun spec => spec.defaultVal) ("run --zone --name=foo".toList)
      (by decide) (by decide))
  · decide

/-- C6: the end-to-end example.  The command template
`gcloud compute instances create [INSTANCE_NAME] --zone=[ZONE]
--machine-type=e2-medium` classifies to the placeholders `INSTANCE_NAME` and
`ZONE`, and resolving them to `web-1` and `us-central1-a` produces exactly
the expected final command string. -/
theorem C6_end_to_end :
    (parse_command_parameters
      ("gcloud compute instances create [INSTANCE_NAME] --zone=[ZONE] --machine-type=e2-medium".toList)).brackets =
      ["INSTANCE_NAME".toList, "ZONE".toList] ∧
    (prompt_for_parameters (fun _ => []) (fun _ => none)
      (fun spec =>
        if spec.name = "INSTANCE_NAME".toList then "web-1".toList
        else if spec.name = "ZONE".toList then "us-central1-a".toList
        else spec.defaultVal)
      ("gcloud compute instances create [INSTANCE_NAME] --zone=[ZONE] --machine-type=e2-medium".toList)).result =
      "gcloud compute instances create web-1 --zone=us-central1-a --machine-type=e2-medium".toList := by
  decide

/-- C5 (counterexample): in `x --a --a=5` the flag `a` is still awaiting a
value when the string ends (a `--name=value` token does not clear the
awaiting state), yet it is bound to `"5"`, not unbound, in the final map. -/
theorem C5_counterexample :
    (parse_state ("x --a --a=5".toList)).current = some ("a".toList) ∧
    alookup ("a".toList) (parse_state ("x --a --a=5".toList)).params =
      some (some ("5".toList)) := by
  decide

/-- C5 (amended): the per-token classification follows the specified case
analysis exactly (for every loop state and token), hence so does the whole
left-to-right fold; a flag still awaiting a value at end of string is always
present in the final map, and it remains unbound (value none) provided no
later `--name=value` token re-bound that same name. -/
theorem C5_token_classification :
    (∀ (st : ParseState) (tok : Str),
      projState (stepPart st tok) = stepSpec (projState st) tok) ∧
    (∀ command : Str, projState (parse_state command) = classifySpec command) ∧
    (∀ (command n : Str), (parse_state command).current = some n →
      (alookup n (parse_state command).params).isSome = true) ∧
    (∀ (command n : Str),
      (∀ tok ∈ pySplitWs command, ¬ reassignsFlag n tok) →
      (parse_state command).current = some n →
      alookup n (parse_state command).params = some none) :=
  ⟨stepPart_agrees, parse_state_agrees,
    parse_awaiting_present, parse_awaiting_unbound⟩

/-- Witness for C5: in `x --a` the trailing flag `a` is awaiting a value and
ends up unbound in the final map. -/
theorem C5_witness :
    alookup ("a".toList) (parse_state ("x --a".toList)).params = some none :=
  C5_token_classification.2.2.2 ("x --a".toList) ("a".toList)
    (by decide) (by decide)

/-- C7: whenever the structured content of the `describeParameters` response
fails to parse, metadata resolution returns the empty mapping (with the
non-fatal warning whenever the model was consulted at all), and the
interactive resolver still runs placeholder mode, prompting once per entry
of the placeholder list using only the bare name: the synthesized
description `Value for <name>`, no examples and an empty default. -/
theorem C7_metadata_fallback (describe : Str → Str)
    (jsonParse : Str → Option (List (Str × ParamMeta)))
    (ask : PromptSpec → Str) (command : Str)
    (hfail : jsonParse (extract_json_part (describe command)) = none) :
    (get_parameter_info describe jsonParse command).info = [] ∧
    (findallBrackets command ≠ [] →
      (get_parameter_info describe jsonParse command).calledLLM = true ∧
      (get_parameter_info describe jsonParse command).warned = true) ∧
    ((parse_command_parameters command).brackets ≠ [] →
      (prompt_for_parameters describe jsonParse ask command).usedPlaceholderMode
        = true ∧
      (prompt_for_parameters describe jsonParse ask command).prompts =
        (parse_command_parameters command).brackets.map (fun p =>
          ⟨p, some ("Value for ".toList ++ p), none, []⟩)) := by
  have hinfo : get_parameter_info describe jsonParse command =
      if findallBrackets command = [] then ⟨[], false, false⟩
      else ⟨[], true, true⟩ := by
    simp only [get_parameter_info]
    by_cases hb : findallBrackets command = []
    · rw [if_pos hb, if_pos hb]
    · rw [if_neg hb, if_neg hb, hfail]
  refine ⟨?_, ?_, ?_⟩
  · rw [hinfo]
    by_cases hb : findallBrackets command = []
    · rw [if_pos hb]
    · rw [if_neg hb]
  · intro hb
    rw [hinfo, if_neg hb]
    exact ⟨rfl, rfl⟩
  · intro hbr
    rw [prompt_for_parameters_placeholder describe jsonParse ask command hbr]
    refine ⟨rfl, ?_⟩
    have hi : (get_parameter_info describe jsonParse command).info = [] := by
      rw [hinfo]
      by_cases hb : findallBrackets command = []
      · rw [if_pos hb]
      · rw [if_neg hb]
    rw [hi]
    show (placeholderLoop [] ask (parse_command_parameters command).brackets
      command).2 = _
    rw [placeholderLoop_prompts]
    exact List.map_congr_left (fun p _ => placeholderPromptSpec_nil p)

/-- Witness for C7: an unparseable metadata response for `run [A]`. -/
theorem C7_witness :
    (get_parameter_info (fun _ => "junk".toList) (fun _ => none)
      ("run [A]".toList)).info = [] ∧
    (get_parameter_info (fun _ => "junk".toList) (fun _ => none)
      ("run [A]".toList)).warned = true ∧
    (prompt_for_parameters (fun _ => "junk".toList) (fun _ => none)
      (fun _ => []) ("run [A]".toList)).prompts =
      [⟨"A".toList, some ("Value for A".toList), none, []⟩] := by
  have h := C7_metadata_fallback (fun _ => "junk".toList) (fun _ => none)
    (fun _ => []) ("run [A]".toList) rfl
  refine ⟨h.1, (h.2.1 (by decide)).2, ?_⟩
  rw [(h.2.2 (by decide)).2]
  decide

/-- C10 (counterexample): an invalid bracketed span is not always preserved:
in `run --flag [my-zone]` the span is consumed as the value of `--flag`, and
if the user answers `x` for that flag the resolved command `run --flag=x` no
longer contains `[my-zone]`. -/
theorem C10_counterexample :
    containsSub ("[my-zone]".toList) ("run --flag [my-zone]".toList) = true ∧
    (prompt_for_parameters (fun _ => []) (fun _ => none)
      (fun _ => "x".toList) ("run --flag [my-zone]".toList)).result =
      "run --flag=x".toList ∧
    containsSub ("[my-zone]".toList)
      ((prompt_for_parameters (fun _ => []) (fun _ => none)
        (fun _ => "x".toList) ("run --flag [my-zone]".toList)).result) =
      false := by
  decide

/-- C10 (amended): only bracketed tokens over `A-Z_` are recognized: every
extracted placeholder name is a nonempty string of class characters (so
spans like `[my-zone]` or `[Zone1]` are never added and never prompted for
as placeholders), and an invalid bracketed span's literal text appears
unchanged in the resolved command whenever the command classifies with at
least one placeholder or with no bound parameters; when only bound
parameters exist the span can be consumed as a flag's offered value and
replaced by the user's answer. -/
theorem C10_invalid_spans :
    (∀ command : Str, ∀ p ∈ (parse_command_parameters command).brackets,
      p ≠ [] ∧ ∀ c ∈ p, classChar c = true) ∧
    (∀ (describe : Str → Str) (jsonParse : Str → Option (List (Str × ParamMeta)))
        (ask : PromptSpec → Str) (command : Str),
      (parse_command_parameters command).brackets ≠ [] →
      ∀ s ∈ (prompt_for_parameters describe jsonParse ask command).prompts,
        s.name ∈ (parse_command_parameters command).brackets) ∧
    (∀ (describe : Str → Str) (jsonParse : Str → Option (List (Str × ParamMeta)))
        (ask : PromptSpec → Str) (command a w b : Str),
      command = a ++ ('[' :: w ++ [']']) ++ b →
      '[' ∉ w → ']' ∉ w → (∃ c ∈ w, classChar c = false) →
      ((parse_command_parameters command).brackets ≠ [] ∨
        (parse_command_parameters command).params = []) →
      ∃ a' b', (prompt_for_parameters describe jsonParse ask command).result =
        a' ++ ('[' :: w ++ [']']) ++ b') := by
  refine ⟨fun command => parse_brackets_valid command, ?_, ?_⟩
  · intro describe jsonParse ask command hbr s hs
    rw [prompt_for_parameters_placeholder describe jsonParse ask command hbr] at hs
    simp only at hs
    rw [placeholderLoop_prompts] at hs
    obtain ⟨p, hp, rfl⟩ := List.mem_map.mp hs
    exact hp
  · intro describe jsonParse ask command a w b hcmd hwl hwr hbad hmode
    by_cases hbr : (parse_command_parameters command).brackets = []
    · have hp : (parse_command_parameters command).params = [] := by
        rcases hmode with hmode | hmode
        · exact absurd hbr hmode
        · exact hmode
      rw [prompt_for_parameters_pass describe jsonParse ask command hp hbr]
      exact ⟨a, b, hcmd⟩
    · rw [prompt_for_parameters_placeholder describe jsonParse ask command hbr]
      subst hcmd
      exact placeholderLoop_keeps_span _ ask _
        (fun p hp => (parse_brackets_valid _ p hp).2) hwl hwr hbad a b

/-- Witness for C10: `do [A] [my-zone]` has a placeholder, so the invalid
span `[my-zone]` survives resolution. -/
theorem C10_witness :
    ∃ a' b', (prompt_for_parameters (fun _ => []) (fun _ => none)
      (fun _ => "v".toList) ("do [A] [my-zone]".toList)).result =
        a' ++ ('[' :: ("my-zone".toList) ++ [']']) ++ b' :=
  C10_invalid_spans.2.2 (fun _ => []) (fun _ => none) (fun _ => "v".toList)
    ("do [A] [my-zone]".toList) ("do [A] ".toList) ("my-zone".toList) []
    (by decide) (by decide) (by decide) (by decide) (Or.inl (by decide))

/-- C8: splitting is idempotent under newline-rejoining.  For every input
that does not contain the sentinel phrase, splitting the newline join of
the split yields the split itself. -/
theorem C8_split_idempotent (x : Str)
    (hx : containsSub sentinel x = false) :
    split_commands (joinWith ['\n'] (split_commands x)) = split_commands x := by
  have hxne : ¬ containsSub sentinel x = true := by simp [hx]
  have helem : ∀ l ∈ split_commands x,
      ∃ line ∈ splitlines x, pyStrip line = l ∧ l ≠ [] := by
    intro l hl
    simp only [split_commands] at hl
    rw [if_neg hxne] at hl
    obtain ⟨line, hline, hfl⟩ := List.mem_filterMap.mp hl
    by_cases hs : pyStrip line = []
    · rw [if_pos hs] at hfl
      exact nomatch hfl
    · rw [if_neg hs] at hfl
      injection hfl with hfl
      exact ⟨line, hline, hfl, fun hnil => hs (hfl.trans hnil)⟩
  obtain ⟨L, hL⟩ : ∃ L, split_commands x = L := ⟨_, rfl⟩
  have hne : ∀ l ∈ L, l ≠ [] := by
    intro l hl
    obtain ⟨line, _, _, h⟩ := helem l (hL ▸ hl)
    exact h
  have hstr : ∀ l ∈ L, pyStrip l = l := by
    intro l hl
    obtain ⟨line, _, hps, _⟩ := helem l (hL ▸ hl)
    rw [← hps, pyStrip_idem]
  have hbf : ∀ l ∈ L, ∀ c ∈ l, isLineBoundary c = false := by
    intro l hl c hc
    obtain ⟨line, hline, hps, _⟩ := helem l (hL ▸ hl)
    have hcl : c ∈ pyStrip line := by rw [hps]; exact hc
    exact splitlines_bf x line hline c (pyStrip_subset line c hcl)
  have hinf : ∀ l ∈ L, ∃ u v, x = u ++ l ++ v := by
    intro l hl
    obtain ⟨line, hline, hps, _⟩ := helem l (hL ▸ hl)
    obtain ⟨u1, v1, h1⟩ := splitlines_within x line hline
    obtain ⟨u2, v2, h2⟩ := pyStrip_decomp line
    rw [hps] at h2
    exact ⟨u1 ++ u2, v2 ++ v1, by rw [h1, h2]; simp [List.append_assoc]⟩
  rw [hL]
  have hy : ¬ containsSub sentinel (joinWith ['\n'] L) = true := by
    intro hpos
    obtain ⟨u, v, huv⟩ := containsSub_iff.mp hpos
    obtain ⟨c, hcL, hcuv⟩ := within_joinWith_nl (by decide) (by decide) L ⟨u, v, huv⟩
    obtain ⟨u1, v1, h1⟩ := hinf c hcL
    obtain ⟨u2, v2, h2⟩ := hcuv
    have hcx : containsSub sentinel x = true :=
      containsSub_iff.mpr ⟨u1 ++ u2, v2 ++ v1, by rw [h1, h2]; simp [List.append_assoc]⟩
    rw [hx] at hcx
    exact nomatch hcx
  simp only [split_commands]
  rw [if_neg hy, splitlines_joinWith L hbf hne]
  refine filterMap_id_of L (fun l hl => ?_)
  show (if pyStrip l = [] then none else some (pyStrip l)) = some l
  rw [hstr l hl, if_neg (hne l hl)]

/-- Witness for C8: a concrete multi-line, blank-line, `\r\n` input. -/
theorem C8_witness :
    split_commands (joinWith ['\n']
      (split_commands ("  a \n\nb\r\nc  ".toList))) =
      split_commands ("  a \n\nb\r\nc  ".toList) :=
  C8_split_idempotent ("  a \n\nb\r\nc  ".toList) (by decide)
